import Mathlib

/-!
Verification development for the kubecl runtime core: a shallow embedding of
the exclusive memory pool, the timestamp profiler, the kernel cache key and
the device feature registry, together with proofs of the specified
properties.

Conventions of the embedding:
- Rust `u64` / `u32` values are modelled as `Nat`. Overflow is irrelevant for
  every quantity here: sizes and counters are only ever added or maxed, and
  `free_count` never exceeds `ALLOC_AFTER_FREE` (a page is dropped as soon as
  the threshold is reached). Saturating subtraction (`saturating_sub`) is
  exactly `Nat` subtraction.
- Fallible code returns `Option`: a Rust `assert!`/panic is modelled as
  `none`.
- Mutation is modelled by explicit state passing; `&mut` methods return the
  updated state.
-/

namespace Kubecl

/-! ## Storage abstraction and slice model -/

/-- Modelled from the spec: `StorageUtilization` describes the
`(offset, size)` window of a storage handle (the storage module itself is not
among the provided sources; the spec gives `{buffer_id, offset, size}`). -/
structure StorageUtilization where
  offset : Nat
  size : Nat
  deriving DecidableEq

/-- Modelled from the spec: `StorageHandle` is a `{buffer_id, offset, size}`
window into a coarse device buffer. -/
structure StorageHandle where
  id : Nat
  utilization : StorageUtilization
  deriving DecidableEq

/-- Modelled from the spec: a `Slice` combines a `StorageHandle`, padding, and
an owning `SliceHandle`. The reference-counted handle is abstracted by the
boolean `free`: `is_free()` holds exactly when no external clone of the
owning handle is outstanding, so handing a clone to a caller sets `free` to
`false` and the caller dropping its last clone sets it back to `true`. -/
structure Slice where
  storage : StorageHandle
  padding : Nat
  free : Bool
  deriving DecidableEq

/-- Modelled from the spec: the storage backend (`ComputeStorage`) allocates
and frees coarse buffers. The model records every allocation `(id, size)` and
every `dealloc` call, so that theorems can observe which physical operations a
pool issued. -/
structure Storage where
  counter : Nat
  allocs : List (Nat × Nat)
  deallocs : List Nat
  deriving DecidableEq

def Storage.alloc (st : Storage) (size : Nat) : Nat × Storage :=
  (st.counter,
    { counter := st.counter + 1,
      allocs := st.allocs ++ [(st.counter, size)],
      deallocs := st.deallocs })

def Storage.dealloc (st : Storage) (id : Nat) : Storage :=
  { st with deallocs := st.deallocs ++ [id] }

/-! ## Exclusive memory pool: data model

Translated from
`crates/cubecl-runtime/src/memory_management/memory_pool/exclusive_pool.rs`. -/

/-- One coarse allocation holding exactly one slice (`struct MemoryPage`). -/
structure MemoryPage where
  slice : Slice
  alloc_size : Nat
  free_count : Nat
  deriving DecidableEq

/-- The pool state (`struct ExclusiveMemoryPool`). -/
structure ExclusiveMemoryPool where
  pages : List MemoryPage
  alignment : Nat
  dealloc_period : Nat
  last_dealloc_check : Nat
  min_alloc_size : Nat
  biggest_alloc : Nat
  deriving DecidableEq

/-- The constant `ALLOC_AFTER_FREE: u32 = 5`. -/
def ALLOC_AFTER_FREE : Nat := 5

/-- Rust `u64::next_multiple_of`: the smallest multiple of `rhs` that is
`≥ n` (total here; Rust panics on `rhs = 0`, which the pool excludes by
asserting `min_alloc_size % alignment == 0` at construction, a computation
that itself panics for `alignment = 0`). -/
def next_multiple_of (n rhs : Nat) : Nat :=
  if n % rhs = 0 then n else n + (rhs - n % rhs)

/-- Modelled from the spec: `calculate_padding(size, alignment)` (defined in
the memory-pool base module, not among the provided sources) is the number of
bytes needed past `size` to reach the next multiple of `alignment` ("padding:
bytes reserved past the logical size to satisfy alignment"). -/
def calculate_padding (size alignment : Nat) : Nat :=
  if size % alignment = 0 then 0 else alignment - size % alignment

/-- The physical page size computed by `alloc_page`:
`((size as f64 * OVER_ALLOC).round() as u64)` with `OVER_ALLOC = 1.35`,
idealized as exact rational arithmetic rounded half away from zero:
`(27 * size + 10) / 20`. The IEEE-754 double computation agrees with this on
all sizes for which the representation error of `1.35` cannot cross a
rounding boundary; the exact float semantics are outside this embedding. -/
def over_alloc_size (size : Nat) : Nat := (27 * size + 10) / 20

/-! ## Exclusive memory pool: operations -/

/-- Source `ExclusiveMemoryPool::new`. The two `assert_eq!` conditions
(`min_alloc_size % alignment == 0`, and implicitly `alignment ≠ 0` since
`%` by zero panics) are carried as hypotheses of `Reachable.new`. -/
def ExclusiveMemoryPool.new (min_alloc_size alignment dealloc_period : Nat) :
    ExclusiveMemoryPool :=
  { pages := [],
    alignment := alignment,
    dealloc_period := dealloc_period,
    last_dealloc_check := 0,
    min_alloc_size := min_alloc_size,
    biggest_alloc := min_alloc_size }

/-- The filter of `get_free_page`:
`page.alloc_size >= size && page.slice.is_free()`. -/
def is_candidate (size : Nat) (p : MemoryPage) : Bool :=
  decide (size ≤ p.alloc_size) && p.slice.free

/-- Source `ExclusiveMemoryPool::get_free_page`: the first page minimizing
`alloc_size` among free pages of sufficient size (`iter.filter(..)
.min_by_key(..)` returns the first of several equally minimal elements).
Returns the index of the chosen page together with the page. -/
def get_free_page : List MemoryPage → Nat → Option (Nat × MemoryPage)
  | [], _ => none
  | p :: rest, size =>
    match get_free_page rest size with
    | none => if is_candidate size p then some (0, p) else none
    | some (j, q) =>
      if is_candidate size p && decide (p.alloc_size ≤ q.alloc_size) then some (0, p)
      else some (j + 1, q)

/-- The in-place update that `try_reserve` performs on the chosen page:
narrow the utilization window to `{offset: 0, size}`, recompute the padding,
decrement `free_count` (`saturating_sub(1)` is `Nat` subtraction), and hand a
clone of the owning handle to the caller (so the page is no longer free). -/
def reserve_page (p : MemoryPage) (size padding : Nat) : MemoryPage :=
  { slice :=
      { storage := { id := p.slice.storage.id,
                     utilization := { offset := 0, size := size } },
        padding := padding,
        free := false },
    alloc_size := p.alloc_size,
    free_count := p.free_count - 1 }

/-- Source `ExclusiveMemoryPool::try_reserve`. The returned `Option Nat` is the
index of the page whose handle clone the source returns. -/
def ExclusiveMemoryPool.try_reserve (pool : ExclusiveMemoryPool) (size : Nat) :
    Option Nat × ExclusiveMemoryPool :=
  if pool.biggest_alloc < size then (none, pool)
  else
    let padding := calculate_padding size pool.alignment
    match get_free_page pool.pages size with
    | some (i, p) =>
      (some i, { pool with pages := pool.pages.set i (reserve_page p size padding) })
    | none => (none, pool)

/-- Source `ExclusiveMemoryPool::alloc_page`: over-allocate, create the slice with
utilization window `{offset: 0, size}`, update `biggest_alloc`, and push the
new page (with `free_count = 0`; the handle clone is still held by the pool
only at this point, but `alloc` immediately hands it out, so the slice is
created non-free). -/
def ExclusiveMemoryPool.alloc_page (pool : ExclusiveMemoryPool) (st : Storage)
    (size : Nat) : ExclusiveMemoryPool × Storage :=
  let alloc_size := next_multiple_of (over_alloc_size size) pool.alignment
  let res := st.alloc alloc_size
  let padding := calculate_padding size pool.alignment
  let page : MemoryPage :=
    { slice :=
        { storage := { id := res.1, utilization := { offset := 0, size := size } },
          padding := padding,
          free := false },
      alloc_size := alloc_size,
      free_count := 0 }
  ({ pool with
      biggest_alloc := max pool.biggest_alloc alloc_size,
      pages := pool.pages ++ [page] }, res.2)

/-- Update the last element of a list (the page `alloc_page` returned a
mutable reference to). -/
def modify_last (f : MemoryPage → MemoryPage) : List MemoryPage → List MemoryPage
  | [] => []
  | [p] => [f p]
  | p :: q :: rest => p :: modify_last f (q :: rest)

/-- Source `ExclusiveMemoryPool::alloc`: `none` models the
`assert!(size >= self.min_alloc_size)` panic; otherwise allocate a page, set
its `free_count` to `ALLOC_AFTER_FREE - 1` and return (the index standing
for) the handle clone. -/
def ExclusiveMemoryPool.alloc (pool : ExclusiveMemoryPool) (st : Storage)
    (size : Nat) : Option (Nat × ExclusiveMemoryPool × Storage) :=
  if size < pool.min_alloc_size then none
  else
    let res := pool.alloc_page st size
    let pool1 := res.1
    some (pool1.pages.length - 1,
      { pool1 with
          pages := modify_last
            (fun p => { p with free_count := ALLOC_AFTER_FREE - 1 }) pool1.pages },
      res.2)

/-- The `retain_mut` body of `cleanup`: a free page has its `free_count`
incremented and is deallocated (dropped, with `storage.dealloc` called) once
the count reaches `ALLOC_AFTER_FREE`; pages in use are kept untouched. -/
def cleanup_pages (st : Storage) : List MemoryPage → List MemoryPage × Storage
  | [] => ([], st)
  | p :: rest =>
    if p.slice.free then
      if ALLOC_AFTER_FREE ≤ p.free_count + 1 then
        cleanup_pages (st.dealloc p.slice.storage.id) rest
      else
        let r := cleanup_pages st rest
        ({ p with free_count := p.free_count + 1 } :: r.1, r.2)
    else
      let r := cleanup_pages st rest
      (p :: r.1, r.2)

/-- Source `ExclusiveMemoryPool::cleanup`: rate-limited to once per
`dealloc_period / ALLOC_AFTER_FREE` allocations (callers pass a monotone
`alloc_nr`, so the `u64` subtraction never underflows and agrees with `Nat`
subtraction). -/
def ExclusiveMemoryPool.cleanup (pool : ExclusiveMemoryPool) (st : Storage)
    (alloc_nr : Nat) : ExclusiveMemoryPool × Storage :=
  let check_period := pool.dealloc_period / ALLOC_AFTER_FREE
  if alloc_nr - pool.last_dealloc_check < check_period then (pool, st)
  else
    let r := cleanup_pages st pool.pages
    ({ pool with last_dealloc_check := alloc_nr, pages := r.1 }, r.2)

/-- Modelled from the spec: the caller dropping the last external clone of a
page's handle makes the page free again (reference-count semantics of
`SliceHandle`, which lives outside the provided sources). -/
def ExclusiveMemoryPool.drop_handle (pool : ExclusiveMemoryPool) (i : Nat) :
    ExclusiveMemoryPool :=
  match pool.pages.get? i with
  | some p =>
    { pool with pages := pool.pages.set i { p with slice := { p.slice with free := true } } }
  | none => pool

/-- Reachable pool states: freshly constructed pools (with `new`'s assertion
satisfied and a nonzero alignment) closed under `try_reserve`, `alloc`,
`cleanup` and the environment dropping a handle. -/
inductive Reachable : ExclusiveMemoryPool → Prop where
  | new (min alignment period : Nat) (h0 : alignment ≠ 0) (h1 : min % alignment = 0) :
      Reachable (ExclusiveMemoryPool.new min alignment period)
  | try_reserve (pool : ExclusiveMemoryPool) (size : Nat) :
      Reachable pool → Reachable (pool.try_reserve size).2
  | alloc (pool : ExclusiveMemoryPool) (st : Storage) (size idx : Nat)
      (pool1 : ExclusiveMemoryPool) (st1 : Storage) :
      Reachable pool → pool.alloc st size = some (idx, pool1, st1) → Reachable pool1
  | cleanup (pool : ExclusiveMemoryPool) (st : Storage) (alloc_nr : Nat) :
      Reachable pool → Reachable (pool.cleanup st alloc_nr).1
  | drop (pool : ExclusiveMemoryPool) (i : Nat) :
      Reachable pool → Reachable (pool.drop_handle i)

/-! ## Arithmetic lemmas -/

theorem le_next_multiple_of (n a : Nat) : n ≤ next_multiple_of n a := by
  unfold next_multiple_of; split <;> omega

theorem next_multiple_of_mod (n a : Nat) (ha : a ≠ 0) : next_multiple_of n a % a = 0 := by
  unfold next_multiple_of
  split
  · assumption
  · have hlt : n % a < a := Nat.mod_lt n (Nat.pos_of_ne_zero ha)
    have hdm : a * (n / a) + n % a = n := Nat.div_add_mod n a
    have heq : n + (a - n % a) = a * (n / a + 1) := by
      rw [Nat.mul_add, Nat.mul_one]; omega
    rw [heq]
    exact Nat.mul_mod_right a _

theorem next_multiple_of_le (n m a : Nat) (ha : a ≠ 0) (hm : m % a = 0) (hnm : n ≤ m) :
    next_multiple_of n a ≤ m := by
  unfold next_multiple_of
  split
  · exact hnm
  · rename_i h
    have hlt : n % a < a := Nat.mod_lt n (Nat.pos_of_ne_zero ha)
    have hdm : a * (n / a) + n % a = n := Nat.div_add_mod n a
    have hdm2 : a * (m / a) + m % a = m := Nat.div_add_mod m a
    have hq : n / a < m / a := by
      by_contra hc
      push_neg at hc
      have := Nat.mul_le_mul (Nat.le_refl a) hc
      omega
    have h2 : a * (n / a + 1) ≤ a * (m / a) := Nat.mul_le_mul (Nat.le_refl a) hq
    have heq : n + (a - n % a) = a * (n / a + 1) := by
      rw [Nat.mul_add, Nat.mul_one]; omega
    omega

theorem le_over_alloc_size (s : Nat) : s ≤ over_alloc_size s := by
  unfold over_alloc_size
  rw [Nat.le_div_iff_mul_le (by norm_num : (0 : Nat) < 20)]
  omega

theorem next_multiple_of_mono (n1 n2 a : Nat) (ha : a ≠ 0) (h : n1 ≤ n2) :
    next_multiple_of n1 a ≤ next_multiple_of n2 a :=
  next_multiple_of_le n1 (next_multiple_of n2 a) a ha (next_multiple_of_mod n2 a ha)
    (le_trans h (le_next_multiple_of n2 a))

theorem size_add_padding (size a : Nat) :
    size + calculate_padding size a = next_multiple_of size a := by
  unfold calculate_padding next_multiple_of
  by_cases h : size % a = 0 <;> simp [h]

/-! ## Correctness of the best-fit search -/

theorem get_free_page_none (pages : List MemoryPage) (size : Nat)
    (h : get_free_page pages size = none) :
    ∀ q ∈ pages, is_candidate size q = false := by
  induction pages with
  | nil => intro q hq; cases hq
  | cons p rest ih =>
    intro q hq
    unfold get_free_page at h
    cases hrec : get_free_page rest size with
    | none =>
      rw [hrec] at h
      by_cases hc : is_candidate size p = true
      · simp [hc] at h
      · rcases List.mem_cons.mp hq with rfl | hmem
        · simpa using hc
        · exact ih hrec q hmem
    | some r =>
      rcases r with ⟨j, qq⟩
      rw [hrec] at h
      dsimp at h
      split at h <;> simp at h

theorem get_free_page_some (pages : List MemoryPage) (size i : Nat) (p : MemoryPage)
    (h : get_free_page pages size = some (i, p)) :
    pages.get? i = some p ∧ is_candidate size p = true ∧
      ∀ q ∈ pages, is_candidate size q = true → p.alloc_size ≤ q.alloc_size := by
  induction pages generalizing i p with
  | nil => simp [get_free_page] at h
  | cons hd rest ih =>
    unfold get_free_page at h
    cases hrec : get_free_page rest size with
    | none =>
      rw [hrec] at h
      by_cases hc : is_candidate size hd = true
      · simp [hc] at h
        obtain ⟨rfl, rfl⟩ := h
        refine ⟨rfl, hc, ?_⟩
        intro q hq hcq
        rcases List.mem_cons.mp hq with rfl | hmem
        · exact le_refl _
        · exact absurd hcq (by simp [get_free_page_none rest size hrec q hmem])
      · simp [hc] at h
    | some r =>
      rcases r with ⟨j, qq⟩
      rw [hrec] at h
      have ihr := ih j qq hrec
      by_cases hc : is_candidate size hd = true
      · by_cases hle : hd.alloc_size ≤ qq.alloc_size
        · simp [hc, hle] at h
          obtain ⟨rfl, rfl⟩ := h
          refine ⟨rfl, hc, ?_⟩
          intro q hq hcq
          rcases List.mem_cons.mp hq with rfl | hmem
          · exact le_refl _
          · exact le_trans hle (ihr.2.2 q hmem hcq)
        · simp [hc, hle] at h
          obtain ⟨rfl, rfl⟩ := h
          refine ⟨by simpa using ihr.1, ihr.2.1, ?_⟩
          intro q hq hcq
          rcases List.mem_cons.mp hq with rfl | hmem
          · exact le_of_lt (lt_of_not_ge hle)
          · exact ihr.2.2 q hmem hcq
      · simp [hc] at h
        obtain ⟨rfl, rfl⟩ := h
        refine ⟨by simpa using ihr.1, ihr.2.1, ?_⟩
        intro q hq hcq
        rcases List.mem_cons.mp hq with rfl | hmem
        · exact absurd hcq hc
        · exact ihr.2.2 q hmem hcq

/-! ## Characterizations of the operations -/

theorem try_reserve_snd (pool : ExclusiveMemoryPool) (size : Nat) :
    (pool.try_reserve size).2 = pool ∨
    ∃ i p, get_free_page pool.pages size = some (i, p) ∧
      (pool.try_reserve size).2 =
        { pool with
            pages := pool.pages.set i
              (reserve_page p size (calculate_padding size pool.alignment)) } := by
  unfold ExclusiveMemoryPool.try_reserve
  by_cases hb : pool.biggest_alloc < size
  · left; simp [hb]
  · cases hg : get_free_page pool.pages size with
    | none => left; simp [hb, hg]
    | some r =>
      rcases r with ⟨i, p⟩
      right
      exact ⟨i, p, rfl, by simp [hb]⟩

theorem modify_last_append (f : MemoryPage → MemoryPage) (xs : List MemoryPage)
    (x : MemoryPage) : modify_last f (xs ++ [x]) = xs ++ [f x] := by
  induction xs with
  | nil => rfl
  | cons a as ih =>
    cases as with
    | nil => simp [modify_last]
    | cons b bs => simpa [modify_last] using ih

theorem alloc_eq (pool : ExclusiveMemoryPool) (st : Storage) (size : Nat)
    (h : ¬ size < pool.min_alloc_size) :
    pool.alloc st size =
      some (pool.pages.length,
        { pool with
            biggest_alloc := max pool.biggest_alloc
              (next_multiple_of (over_alloc_size size) pool.alignment),
            pages := pool.pages ++
              [{ slice :=
                   { storage := { id := st.counter,
                                  utilization := { offset := 0, size := size } },
                     padding := calculate_padding size pool.alignment,
                     free := false },
                 alloc_size := next_multiple_of (over_alloc_size size) pool.alignment,
                 free_count := ALLOC_AFTER_FREE - 1 }] },
        { counter := st.counter + 1,
          allocs := st.allocs ++
            [(st.counter, next_multiple_of (over_alloc_size size) pool.alignment)],
          deallocs := st.deallocs }) := by
  unfold ExclusiveMemoryPool.alloc ExclusiveMemoryPool.alloc_page Storage.alloc
  simp [h, modify_last_append]

theorem cleanup_pages_spec (pages : List MemoryPage) (st : Storage) :
    (cleanup_pages st pages).1 =
      (pages.filter
        (fun p => !(p.slice.free && decide (ALLOC_AFTER_FREE ≤ p.free_count + 1)))).map
        (fun p => if p.slice.free then { p with free_count := p.free_count + 1 } else p) ∧
    (cleanup_pages st pages).2.deallocs =
      st.deallocs ++
        (pages.filter
          (fun p => p.slice.free && decide (ALLOC_AFTER_FREE ≤ p.free_count + 1))).map
          (fun p => p.slice.storage.id) := by
  induction pages generalizing st with
  | nil => simp [cleanup_pages]
  | cons p rest ih =>
    by_cases hf : p.slice.free = true
    · by_cases hd : ALLOC_AFTER_FREE ≤ p.free_count + 1
      · have hih := ih (st.dealloc p.slice.storage.id)
        simp [cleanup_pages, hf, hd, Storage.dealloc] at hih ⊢
        exact ⟨hih.1, hih.2⟩
      · have hih := ih st
        simp [cleanup_pages, hf, hd] at hih ⊢
        exact ⟨hih.1, hih.2⟩
    · have hih := ih st
      simp [cleanup_pages, hf] at hih ⊢
      exact ⟨hih.1, hih.2⟩

theorem cleanup_fst (pool : ExclusiveMemoryPool) (st : Storage) (alloc_nr : Nat) :
    (pool.cleanup st alloc_nr).1 = pool ∨
    (pool.cleanup st alloc_nr).1 =
      { pool with last_dealloc_check := alloc_nr,
                  pages := (cleanup_pages st pool.pages).1 } := by
  unfold ExclusiveMemoryPool.cleanup
  by_cases hc : alloc_nr - pool.last_dealloc_check < pool.dealloc_period / ALLOC_AFTER_FREE
  · left; simp [hc]
  · right; simp [hc]

theorem cleanup_pages_mem (pages : List MemoryPage) (st : Storage) (q : MemoryPage)
    (hq : q ∈ (cleanup_pages st pages).1) :
    ∃ p ∈ pages, q.slice = p.slice ∧ q.alloc_size = p.alloc_size := by
  have hspec := (cleanup_pages_spec pages st).1
  rw [hspec] at hq
  rcases List.mem_map.mp hq with ⟨p, hp, rfl⟩
  have hpmem := List.mem_of_mem_filter hp
  by_cases hf : p.slice.free = true <;> exact ⟨p, hpmem, by simp [hf], by simp [hf]⟩

theorem drop_handle_mem (pool : ExclusiveMemoryPool) (i : Nat) (q : MemoryPage)
    (hq : q ∈ (pool.drop_handle i).pages) :
    ∃ p ∈ pool.pages, q.slice.storage = p.slice.storage ∧
      q.slice.padding = p.slice.padding ∧ q.alloc_size = p.alloc_size := by
  unfold ExclusiveMemoryPool.drop_handle at hq
  cases hg : pool.pages.get? i with
  | none => rw [hg] at hq; exact ⟨q, hq, rfl, rfl, rfl⟩
  | some p =>
    rw [hg] at hq
    dsimp at hq
    rcases List.mem_or_eq_of_mem_set hq with hmem | rfl
    · exact ⟨q, hmem, rfl, rfl, rfl⟩
    · exact ⟨p, List.get?_mem hg, rfl, rfl, rfl⟩

theorem drop_handle_alignment (pool : ExclusiveMemoryPool) (i : Nat) :
    (pool.drop_handle i).alignment = pool.alignment := by
  unfold ExclusiveMemoryPool.drop_handle
  cases pool.pages.get? i <;> rfl

theorem drop_handle_biggest (pool : ExclusiveMemoryPool) (i : Nat) :
    (pool.drop_handle i).biggest_alloc = pool.biggest_alloc := by
  unfold ExclusiveMemoryPool.drop_handle
  cases pool.pages.get? i <;> rfl

/-! ## The reachable-state invariant -/

/-- The invariant maintained by every reachable pool state. -/
structure PoolInv (pool : ExclusiveMemoryPool) : Prop where
  align_ne : pool.alignment ≠ 0
  page_le : ∀ p ∈ pool.pages, p.alloc_size ≤ pool.biggest_alloc
  page_align : ∀ p ∈ pool.pages, p.alloc_size % pool.alignment = 0
  page_fit : ∀ p ∈ pool.pages,
    p.slice.storage.utilization.size + p.slice.padding ≤ p.alloc_size

theorem reachable_inv (pool : ExclusiveMemoryPool) (h : Reachable pool) :
    PoolInv pool := by
  induction h with
  | new min alignment period h0 h1 =>
    refine ⟨h0, ?_, ?_, ?_⟩ <;> intro p hp <;> simp [ExclusiveMemoryPool.new] at hp
  | try_reserve pool size hr ih =>
    rcases try_reserve_snd pool size with heq | ⟨i, p, hg, heq⟩
    · rwa [heq]
    · rw [heq]
      obtain ⟨hget, hcand, _⟩ := get_free_page_some pool.pages size i p hg
      have hpmem : p ∈ pool.pages := List.get?_mem hget
      have hcand' := hcand
      simp [is_candidate] at hcand'
      refine ⟨ih.align_ne, ?_, ?_, ?_⟩ <;> intro q hq <;>
        rcases List.mem_or_eq_of_mem_set hq with hmem | rfl
      · exact ih.page_le q hmem
      · exact ih.page_le p hpmem
      · exact ih.page_align q hmem
      · exact ih.page_align p hpmem
      · exact ih.page_fit q hmem
      · show size + calculate_padding size pool.alignment ≤ p.alloc_size
        rw [size_add_padding]
        exact next_multiple_of_le size p.alloc_size pool.alignment ih.align_ne
          (ih.page_align p hpmem) hcand'.1
  | alloc pool st size idx pool1 st1 hr heq ih =>
    have hlt : ¬ size < pool.min_alloc_size := by
      by_contra hc
      simp [ExclusiveMemoryPool.alloc, hc] at heq
    rw [alloc_eq pool st size hlt] at heq
    simp only [Option.some.injEq, Prod.mk.injEq] at heq
    obtain ⟨-, h2, -⟩ := heq
    rw [← h2]
    refine ⟨ih.align_ne, ?_, ?_, ?_⟩ <;> intro q hq <;>
      rcases List.mem_append.mp hq with hmem | hnew
    · exact le_trans (ih.page_le q hmem) (le_max_left _ _)
    · rw [List.mem_singleton.mp hnew]
      exact le_max_right _ _
    · exact ih.page_align q hmem
    · rw [List.mem_singleton.mp hnew]
      exact next_multiple_of_mod _ _ ih.align_ne
    · exact ih.page_fit q hmem
    · rw [List.mem_singleton.mp hnew]
      show size + calculate_padding size pool.alignment ≤ _
      rw [size_add_padding]
      exact next_multiple_of_mono size (over_alloc_size size) pool.alignment ih.align_ne
        (le_over_alloc_size size)
  | cleanup pool st alloc_nr hr ih =>
    rcases cleanup_fst pool st alloc_nr with heq | heq
    · rwa [heq]
    · rw [heq]
      refine ⟨ih.align_ne, ?_, ?_, ?_⟩ <;> intro q hq <;>
        obtain ⟨p, hmem, hs, ha⟩ := cleanup_pages_mem pool.pages st q hq
      · rw [ha]; exact ih.page_le p hmem
      · rw [ha]; exact ih.page_align p hmem
      · rw [hs, ha]; exact ih.page_fit p hmem
  | drop pool i hr ih =>
    refine ⟨by rw [drop_handle_alignment]; exact ih.align_ne, ?_, ?_, ?_⟩ <;>
      intro q hq <;>
      obtain ⟨p, hmem, hst, hpad, ha⟩ := drop_handle_mem pool i q hq
    · rw [drop_handle_biggest, ha]; exact ih.page_le p hmem
    · rw [drop_handle_alignment, ha]; exact ih.page_align p hmem
    · rw [hst, hpad, ha]; exact ih.page_fit p hmem

theorem try_reserve_fst (pool : ExclusiveMemoryPool) (size : Nat) :
    (pool.try_reserve size).1 =
      if pool.biggest_alloc < size then none
      else (get_free_page pool.pages size).map Prod.fst := by
  unfold ExclusiveMemoryPool.try_reserve
  by_cases hb : pool.biggest_alloc < size
  · simp [hb]
  · cases hg : get_free_page pool.pages size with
    | none => simp [hb]
    | some r => rcases r with ⟨i, p⟩; simp [hb]

theorem is_candidate_iff (size : Nat) (q : MemoryPage) :
    is_candidate size q = true ↔ (q.slice.free = true ∧ size ≤ q.alloc_size) := by
  simp [is_candidate, and_comm]

/-! ## Claim theorems: exclusive memory pool -/

/-- C2: if `try_reserve(s)` returns a handle, the chosen page is free, has
`alloc_size ≥ s`, and its `alloc_size` is minimal among all currently free
pages with `alloc_size ≥ s` (best-fit); `try_reserve(s)` returns `None`
exactly when no free page has `alloc_size ≥ s` (the fast path for
`s > biggest_alloc` never rejects a servable request, by the reachable-state
invariant). -/
theorem C2_try_reserve_best_fit (pool : ExclusiveMemoryPool) (size : Nat)
    (h : Reachable pool) :
    (∀ i, (pool.try_reserve size).1 = some i →
      ∃ p, pool.pages.get? i = some p ∧ p.slice.free = true ∧ size ≤ p.alloc_size ∧
        ∀ q ∈ pool.pages, q.slice.free = true → size ≤ q.alloc_size →
          p.alloc_size ≤ q.alloc_size) ∧
    ((pool.try_reserve size).1 = none ↔
      ∀ q ∈ pool.pages, ¬(q.slice.free = true ∧ size ≤ q.alloc_size)) := by
  have hinv := reachable_inv pool h
  rw [try_reserve_fst]
  by_cases hb : pool.biggest_alloc < size
  · rw [if_pos hb]
    refine ⟨?_, ?_⟩
    · intro i hi; exact Option.noConfusion hi
    · refine iff_of_true rfl ?_
      intro q hq hqc
      exact absurd (le_trans hqc.2 (hinv.page_le q hq)) (not_le.mpr hb)
  · rw [if_neg hb]
    cases hg : get_free_page pool.pages size with
    | none =>
      refine ⟨?_, ?_⟩
      · intro i hi; simp at hi
      · refine iff_of_true (by simp) ?_
        intro q hq hqc
        have hqc' := (is_candidate_iff size q).mpr hqc
        rw [get_free_page_none pool.pages size hg q hq] at hqc'
        cases hqc'
    | some r =>
      rcases r with ⟨i0, p0⟩
      obtain ⟨hget, hcand, hmin⟩ := get_free_page_some pool.pages size i0 p0 hg
      have hc := (is_candidate_iff size p0).mp hcand
      refine ⟨?_, ?_⟩
      · intro i hi
        simp at hi
        subst hi
        refine ⟨p0, hget, hc.1, hc.2, ?_⟩
        intro q hq hf hs
        exact hmin q hq ((is_candidate_iff size q).mpr ⟨hf, hs⟩)
      · refine iff_of_false (by simp) ?_
        intro hall
        exact hall p0 (List.get?_mem hget) ⟨hc.1, hc.2⟩

/-- Witness for C2 at a concrete reachable pool: one page of capacity 8 was
allocated and its handle dropped, so it is free; the theorem is applied at
request size 4. -/
def c2_alloc_result : Nat × ExclusiveMemoryPool × Storage :=
  ((ExclusiveMemoryPool.new 4 4 20).alloc { counter := 0, allocs := [], deallocs := [] } 4).getD
    (0, ExclusiveMemoryPool.new 4 4 20, { counter := 0, allocs := [], deallocs := [] })

def c2_pool : ExclusiveMemoryPool := c2_alloc_result.2.1.drop_handle 0

theorem C2_try_reserve_best_fit_witness :
    (c2_pool.try_reserve 4).1 = none ↔
      ∀ q ∈ c2_pool.pages, ¬(q.slice.free = true ∧ 4 ≤ q.alloc_size) :=
  (C2_try_reserve_best_fit c2_pool 4
    (Reachable.drop c2_alloc_result.2.1 0
      (Reachable.alloc (ExclusiveMemoryPool.new 4 4 20)
        { counter := 0, allocs := [], deallocs := [] } 4
        c2_alloc_result.1 c2_alloc_result.2.1 c2_alloc_result.2.2
        (Reachable.new 4 4 20 (by decide) (by decide)) rfl))).2

/-- C6: in every reachable pool state every page satisfies
`utilization.size + padding ≤ alloc_size`, and both `alloc` and
`try_reserve` preserve this invariant. -/
theorem C6_utilization_padding_invariant (pool : ExclusiveMemoryPool)
    (h : Reachable pool) :
    (∀ p ∈ pool.pages,
        p.slice.storage.utilization.size + p.slice.padding ≤ p.alloc_size) ∧
    (∀ size, ∀ p ∈ (pool.try_reserve size).2.pages,
        p.slice.storage.utilization.size + p.slice.padding ≤ p.alloc_size) ∧
    (∀ st size idx pool1 st1, pool.alloc st size = some (idx, pool1, st1) →
        ∀ p ∈ pool1.pages,
          p.slice.storage.utilization.size + p.slice.padding ≤ p.alloc_size) := by
  refine ⟨(reachable_inv pool h).page_fit, ?_, ?_⟩
  · intro size p hp
    exact (reachable_inv _ (Reachable.try_reserve pool size h)).page_fit p hp
  · intro st size idx pool1 st1 heq p hp
    exact (reachable_inv _ (Reachable.alloc pool st size idx pool1 st1 h heq)).page_fit p hp

def c6_alloc_result : Nat × ExclusiveMemoryPool × Storage :=
  ((ExclusiveMemoryPool.new 4 4 20).alloc { counter := 0, allocs := [], deallocs := [] } 4).getD
    (0, ExclusiveMemoryPool.new 4 4 20, { counter := 0, allocs := [], deallocs := [] })

/-- The single page of `c6_alloc_result.2.1`: capacity 8 serving a slice of
logical size 4 with no padding. -/
def c6_page : MemoryPage :=
  { slice := { storage := { id := 0, utilization := { offset := 0, size := 4 } },
               padding := 0, free := false },
    alloc_size := 8, free_count := 4 }

theorem C6_utilization_padding_invariant_witness :
    c6_page.slice.storage.utilization.size + c6_page.slice.padding ≤
      c6_page.alloc_size :=
  (C6_utilization_padding_invariant c6_alloc_result.2.1
    (Reachable.alloc (ExclusiveMemoryPool.new 4 4 20)
      { counter := 0, allocs := [], deallocs := [] } 4
      c6_alloc_result.1 c6_alloc_result.2.1 c6_alloc_result.2.2
      (Reachable.new 4 4 20 (by decide) (by decide)) rfl)).1 c6_page (by decide)

/-- C8: `alloc` panics (here: returns `none`) if and only if the requested
size is below the pool's `min_alloc_size`; for `size ≥ min_alloc_size` it
always returns a handle. -/
theorem C8_alloc_panics_iff (pool : ExclusiveMemoryPool) (st : Storage) (size : Nat) :
    (pool.alloc st size = none ↔ size < pool.min_alloc_size) ∧
    (pool.min_alloc_size ≤ size →
      ∃ idx pool1 st1, pool.alloc st size = some (idx, pool1, st1)) := by
  constructor
  · constructor
    · intro hn
      by_contra hc
      rw [alloc_eq pool st size hc] at hn
      cases hn
    · intro hlt
      simp [ExclusiveMemoryPool.alloc, hlt]
  · intro hle
    exact ⟨_, _, _, alloc_eq pool st size (not_lt.mpr hle)⟩

theorem C8_alloc_panics_iff_witness :
    ((ExclusiveMemoryPool.new 4 4 20).alloc
        { counter := 0, allocs := [], deallocs := [] } 2 = none ↔
      2 < (ExclusiveMemoryPool.new 4 4 20).min_alloc_size) :=
  (C8_alloc_panics_iff (ExclusiveMemoryPool.new 4 4 20)
    { counter := 0, allocs := [], deallocs := [] } 2).1

/-- C10: `biggest_alloc` never decreases under any operation, every page's
`alloc_size` is bounded by it in every reachable state, and hence the fast
path of `try_reserve` (`size > biggest_alloc → None`) never rejects a
request that some currently free page could serve. -/
theorem C10_biggest_alloc_monotone (pool : ExclusiveMemoryPool)
    (h : Reachable pool) :
    (∀ size, pool.biggest_alloc ≤ ((pool.try_reserve size).2).biggest_alloc) ∧
    (∀ st size idx pool1 st1, pool.alloc st size = some (idx, pool1, st1) →
        pool.biggest_alloc ≤ pool1.biggest_alloc) ∧
    (∀ st alloc_nr, pool.biggest_alloc ≤ ((pool.cleanup st alloc_nr).1).biggest_alloc) ∧
    (∀ i, pool.biggest_alloc ≤ (pool.drop_handle i).biggest_alloc) ∧
    (∀ p ∈ pool.pages, p.alloc_size ≤ pool.biggest_alloc) ∧
    (∀ size, (∃ p ∈ pool.pages, p.slice.free = true ∧ size ≤ p.alloc_size) →
        ¬ pool.biggest_alloc < size) := by
  have hinv := reachable_inv pool h
  refine ⟨?_, ?_, ?_, ?_, hinv.page_le, ?_⟩
  · intro size
    rcases try_reserve_snd pool size with heq | ⟨i, p, hg, heq⟩ <;> rw [heq]
  · intro st size idx pool1 st1 heq
    have hlt : ¬ size < pool.min_alloc_size := by
      by_contra hc
      simp [ExclusiveMemoryPool.alloc, hc] at heq
    rw [alloc_eq pool st size hlt] at heq
    simp only [Option.some.injEq, Prod.mk.injEq] at heq
    obtain ⟨-, h2, -⟩ := heq
    rw [← h2]
    exact le_max_left _ _
  · intro st alloc_nr
    rcases cleanup_fst pool st alloc_nr with heq | heq <;> rw [heq]
  · intro i
    rw [drop_handle_biggest]
  · intro size ⟨p, hp, hf, hs⟩
    exact not_lt.mpr (le_trans hs (hinv.page_le p hp))

theorem C10_biggest_alloc_monotone_witness :
    (ExclusiveMemoryPool.new 4 4 20).biggest_alloc ≤
      (((ExclusiveMemoryPool.new 4 4 20).try_reserve 5).2).biggest_alloc :=
  (C10_biggest_alloc_monotone (ExclusiveMemoryPool.new 4 4 20)
    (Reachable.new 4 4 20 (by decide) (by decide))).1 5

/-! ## Claim C1: cleanup hysteresis -/

/-- Concrete scenario refuting the cleanup-hysteresis claim: pool with
`min_alloc_size = 4`, `alignment = 4`, `dealloc_period = 20` (so the check
period is `20 / ALLOC_AFTER_FREE = 4`); one allocation of size 4. -/
def c1_pool0 : ExclusiveMemoryPool := ExclusiveMemoryPool.new 4 4 20

def c1_st0 : Storage := { counter := 0, allocs := [], deallocs := [] }

def c1_alloc_result : Nat × ExclusiveMemoryPool × Storage :=
  (c1_pool0.alloc c1_st0 4).getD (0, c1_pool0, c1_st0)

/-- C1 is false on the code: a page is allocated (its `free_count` starts at
`ALLOC_AFTER_FREE - 1`, not 0), its handle is dropped, and then the very
first cleanup check that finds it free — the only cleanup call ever made —
physically deallocates it (`storage.dealloc` is called and the page is
dropped), even though only `1 < ALLOC_AFTER_FREE` cleanup checks found it
free. -/
theorem C1_counterexample :
    (c1_pool0.alloc c1_st0 4).isSome = true ∧
    ((c1_alloc_result.2.1.drop_handle c1_alloc_result.1).pages.map
        (fun p => (p.slice.free, p.free_count)) = [(true, ALLOC_AFTER_FREE - 1)]) ∧
    ((c1_alloc_result.2.1.drop_handle c1_alloc_result.1).cleanup
        c1_alloc_result.2.2 4).1.pages = [] ∧
    ((c1_alloc_result.2.1.drop_handle c1_alloc_result.1).cleanup
        c1_alloc_result.2.2 4).2.deallocs = [0] ∧
    1 < ALLOC_AFTER_FREE := by decide

/-- C1 amended: a cleanup pass that passes the rate limit deallocates exactly
the pages that it finds free and whose `free_count`, after the increment,
reaches `ALLOC_AFTER_FREE`; the surviving free pages have their count
incremented. Since `alloc` initializes a new page's `free_count` to
`ALLOC_AFTER_FREE - 1`, a newly allocated page IS reclaimed by the first
cleanup check that finds it free; only a page whose count was driven down by
`try_reserve` needs several (not necessarily consecutive) free checks. -/
theorem C1_amended_cleanup_threshold (pool : ExclusiveMemoryPool)
    (st st2 : Storage) (alloc_nr : Nat)
    (hp : ¬ alloc_nr - pool.last_dealloc_check <
        pool.dealloc_period / ALLOC_AFTER_FREE) :
    ((pool.cleanup st alloc_nr).1.pages =
      (pool.pages.filter
        (fun p => !(p.slice.free && decide (ALLOC_AFTER_FREE ≤ p.free_count + 1)))).map
        (fun p => if p.slice.free then { p with free_count := p.free_count + 1 } else p)) ∧
    ((pool.cleanup st alloc_nr).2.deallocs =
      st.deallocs ++
        (pool.pages.filter
          (fun p => p.slice.free && decide (ALLOC_AFTER_FREE ≤ p.free_count + 1))).map
          (fun p => p.slice.storage.id)) ∧
    (∀ size idx pool1 st1, pool.alloc st2 size = some (idx, pool1, st1) →
      ∃ q, pool1.pages.get? idx = some q ∧ q.free_count = ALLOC_AFTER_FREE - 1 ∧
        q.slice.free = false) := by
  have hcl : pool.cleanup st alloc_nr =
      ({ pool with last_dealloc_check := alloc_nr,
                   pages := (cleanup_pages st pool.pages).1 },
       (cleanup_pages st pool.pages).2) := by
    unfold ExclusiveMemoryPool.cleanup
    simp [hp]
  refine ⟨?_, ?_, ?_⟩
  · rw [hcl]; exact (cleanup_pages_spec pool.pages st).1
  · rw [hcl]; exact (cleanup_pages_spec pool.pages st).2
  · intro size idx pool1 st1 heq
    have hlt : ¬ size < pool.min_alloc_size := by
      by_contra hc
      simp [ExclusiveMemoryPool.alloc, hc] at heq
    rw [alloc_eq pool st2 size hlt] at heq
    simp only [Option.some.injEq, Prod.mk.injEq] at heq
    obtain ⟨h1, h2, -⟩ := heq
    refine ⟨{ slice :=
                { storage := { id := st2.counter,
                               utilization := { offset := 0, size := size } },
                  padding := calculate_padding size pool.alignment,
                  free := false },
              alloc_size := next_multiple_of (over_alloc_size size) pool.alignment,
              free_count := ALLOC_AFTER_FREE - 1 }, ?_, rfl, rfl⟩
    rw [← h1, ← h2]
    exact List.get?_concat_length _ _

theorem C1_amended_cleanup_threshold_witness :
    ∃ q, c1_alloc_result.2.1.pages.get? c1_alloc_result.1 = some q ∧
      q.free_count = ALLOC_AFTER_FREE - 1 ∧ q.slice.free = false :=
  (C1_amended_cleanup_threshold c1_pool0 c1_st0 c1_st0 4 (by decide)).2.2 4
    c1_alloc_result.1 c1_alloc_result.2.1 c1_alloc_result.2.2 rfl

/-! ## Timestamp profiler

Translated from `crates/cubecl-runtime/src/timestamp_profiler.rs`. Instants
are modelled as `Nat` time points passed in by the caller (`Instant::now()`
is ambient in the source); a duration is the difference of two instants. -/

/-- Modelled from the spec: `ProfileError` (declared in the server module,
not among the provided sources) is a distinct "not registered" value plus
device-level failures. -/
inductive ProfileError
  | NotRegistered
  | DeviceError (code : Nat)
  deriving DecidableEq

/-- The per-token state (`enum State`): a start instant or a deferred
error. -/
inductive ProfState
  | start (instant : Nat)
  | error (e : ProfileError)
  deriving DecidableEq

/-- The profiler (`struct TimestampProfiler`): a map from token ids to
states, plus the monotonically increasing token counter. The hash map is
modelled as an association list with unique keys. -/
structure TimestampProfiler where
  state : List (Nat × ProfState)
  counter : Nat
  deriving DecidableEq

def lookupState : List (Nat × ProfState) → Nat → Option ProfState
  | [], _ => none
  | kv :: rest, t => if kv.1 = t then some kv.2 else lookupState rest t

def removeState (s : List (Nat × ProfState)) (t : Nat) : List (Nat × ProfState) :=
  s.filter (fun kv => !(kv.1 == t))

def insertState (s : List (Nat × ProfState)) (t : Nat) (v : ProfState) :
    List (Nat × ProfState) :=
  removeState s t ++ [(t, v)]

/-- Source `TimestampProfiler::start`: allocate the next token id, record the
current instant, bump the counter. -/
def TimestampProfiler.start (p : TimestampProfiler) (now : Nat) :
    Nat × TimestampProfiler :=
  (p.counter,
    { state := insertState p.state p.counter (ProfState.start now),
      counter := p.counter + 1 })

/-- Source `TimestampProfiler::stop`: remove the token and return the elapsed
duration, the deferred error, or `NotRegistered` for an unknown token. -/
def TimestampProfiler.stop (p : TimestampProfiler) (token now : Nat) :
    Except ProfileError Nat × TimestampProfiler :=
  match lookupState p.state token with
  | none => (Except.error ProfileError.NotRegistered,
             { p with state := removeState p.state token })
  | some (ProfState.start t0) => (Except.ok (now - t0),
             { p with state := removeState p.state token })
  | some (ProfState.error e) => (Except.error e,
             { p with state := removeState p.state token })

/-- Source `TimestampProfiler::error`: overwrite every open token's state with the
same error. -/
def TimestampProfiler.error (p : TimestampProfiler) (e : ProfileError) :
    TimestampProfiler :=
  { p with state := p.state.map (fun kv => (kv.1, ProfState.error e)) }

theorem lookupState_map_const (s : List (Nat × ProfState)) (v : ProfState)
    (t : Nat) :
    lookupState (s.map (fun kv => (kv.1, v))) t =
      (lookupState s t).map (fun _ => v) := by
  induction s with
  | nil => rfl
  | cons kv rest ih =>
    by_cases h : kv.1 = t <;> simp [lookupState, h, ih]

theorem lookupState_remove_self (s : List (Nat × ProfState)) (t : Nat) :
    lookupState (removeState s t) t = none := by
  induction s with
  | nil => rfl
  | cons kv rest ih =>
    by_cases h : kv.1 = t
    · simpa [removeState, List.filter_cons, h] using ih
    · simpa [removeState, List.filter_cons, h, lookupState] using ih

theorem lookupState_remove_ne (s : List (Nat × ProfState)) (t t2 : Nat)
    (h : t2 ≠ t) : lookupState (removeState s t) t2 = lookupState s t2 := by
  induction s with
  | nil => rfl
  | cons kv rest ih =>
    by_cases hk : kv.1 = t
    · have ht2 : ¬ t = t2 := fun hc => h hc.symm
      simpa [removeState, List.filter_cons, hk, lookupState, ht2] using ih
    · by_cases hk2 : kv.1 = t2
      · simp [removeState, List.filter_cons, hk, lookupState, hk2, h]
      · simpa [removeState, List.filter_cons, hk, lookupState, hk2, h] using ih

theorem lookupState_append_last (s : List (Nat × ProfState)) (t : Nat)
    (v : ProfState) (h : lookupState s t = none) :
    lookupState (s ++ [(t, v)]) t = some v := by
  induction s with
  | nil => simp [lookupState]
  | cons kv rest ih =>
    by_cases hk : kv.1 = t <;> simp [lookupState, hk] at h ⊢
    exact ih h

theorem stop_fst_of_none (p : TimestampProfiler) (tok now : Nat)
    (h : lookupState p.state tok = none) :
    (p.stop tok now).1 = Except.error ProfileError.NotRegistered := by
  unfold TimestampProfiler.stop
  rw [h]

theorem stop_fst_of_error (p : TimestampProfiler) (tok now : Nat)
    (e : ProfileError) (h : lookupState p.state tok = some (ProfState.error e)) :
    (p.stop tok now).1 = Except.error e := by
  unfold TimestampProfiler.stop
  rw [h]

theorem stop_fst_of_start (p : TimestampProfiler) (tok now t0 : Nat)
    (h : lookupState p.state tok = some (ProfState.start t0)) :
    (p.stop tok now).1 = Except.ok (now - t0) := by
  unfold TimestampProfiler.stop
  rw [h]

theorem stop_snd_state (p : TimestampProfiler) (tok now : Nat) :
    (p.stop tok now).2.state = removeState p.state tok := by
  unfold TimestampProfiler.stop
  cases hl : lookupState p.state tok with
  | none => rfl
  | some s => cases s <;> rfl

theorem error_state (p : TimestampProfiler) (e : ProfileError) :
    (p.error e).state = p.state.map (fun kv => (kv.1, ProfState.error e)) := rfl

/-! ## Claim theorems: timestamp profiler -/

/-- C4: after `error(e)`, every token that was open before the call returns
`Err e` from a subsequent `stop`; a token started after the error call is
unaffected and returns a duration. -/
theorem C4_error_poisons_open_tokens (p : TimestampProfiler) (e : ProfileError)
    (tok now later : Nat) (hopen : lookupState p.state tok ≠ none) :
    (((p.error e).stop tok later).1 = Except.error e) ∧
    (let r := (p.error e).start now
     ((r.2.stop r.1 later).1 = Except.ok (later - now))) := by
  constructor
  · apply stop_fst_of_error
    rw [error_state, lookupState_map_const]
    cases hl : lookupState p.state tok with
    | none => exact absurd hl hopen
    | some s => rfl
  · apply stop_fst_of_start
    show lookupState
      (insertState (p.error e).state (p.error e).counter (ProfState.start now))
      (p.error e).counter = some (ProfState.start now)
    unfold insertState
    apply lookupState_append_last
    rw [lookupState_remove_self]

def c4_profiler : TimestampProfiler :=
  { state := [(0, ProfState.start 10)], counter := 1 }

theorem C4_error_poisons_open_tokens_witness :
    ((c4_profiler.error (ProfileError.DeviceError 7)).stop 0 42).1 =
        Except.error (ProfileError.DeviceError 7) ∧
    (let r := (c4_profiler.error (ProfileError.DeviceError 7)).start 20
     ((r.2.stop r.1 42).1 = Except.ok (42 - 20))) :=
  C4_error_poisons_open_tokens c4_profiler (ProfileError.DeviceError 7) 0 20 42
    (by decide)

/-- C5: `stop` removes the token, so a second `stop` on the same token — or
a `stop` on a token that was never started — returns `NotRegistered`, and no
other token's state is affected. -/
theorem C5_stop_removes_token (p : TimestampProfiler) (tok now now2 : Nat) :
    (((p.stop tok now).2.stop tok now2).1 =
        Except.error ProfileError.NotRegistered) ∧
    (lookupState p.state tok = none →
        (p.stop tok now).1 = Except.error ProfileError.NotRegistered) ∧
    (∀ t2, t2 ≠ tok →
        lookupState (p.stop tok now).2.state t2 = lookupState p.state t2) := by
  refine ⟨?_, ?_, ?_⟩
  · apply stop_fst_of_none
    rw [stop_snd_state, lookupState_remove_self]
  · intro hn
    exact stop_fst_of_none p tok now hn
  · intro t2 hne
    rw [stop_snd_state]
    exact lookupState_remove_ne p.state tok t2 hne

def c5_profiler : TimestampProfiler :=
  { state := [(0, ProfState.start 5)], counter := 1 }

theorem C5_stop_removes_token_witness :
    ((c5_profiler.stop 0 11).2.stop 0 12).1 =
      Except.error ProfileError.NotRegistered :=
  (C5_stop_removes_token c5_profiler 0 11 12).1

/-! ## Device feature registry

Translated from `crates/cubecl-runtime/src/feature_set.rs`. The `Feature`
type parameter (`Ord + Copy`) is modelled as `Nat`;
`MemoryDeviceProperties` and `HardwareProperties` are opaque records whose
fields never matter here and are modelled as `Nat`. The `BTreeSet` is
modelled by a duplicate-free list with set semantics. -/

structure DeviceProperties where
  set : List Nat
  memory : Nat
  hardware : Nat
  deriving DecidableEq

/-- Source `BTreeSet::insert`: returns whether the value was newly inserted. -/
def btree_insert (s : List Nat) (f : Nat) : Bool × List Nat :=
  if f ∈ s then (false, s) else (true, s ++ [f])

/-- Source `DeviceProperties::new`: inserts every feature of the given slice. -/
def DeviceProperties.new (features : List Nat) (memory hardware : Nat) :
    DeviceProperties :=
  { set := features.foldl (fun s f => (btree_insert s f).2) [],
    memory := memory,
    hardware := hardware }

/-- Source `DeviceProperties::feature_enabled`: `self.set.contains(&feature)`. -/
def DeviceProperties.feature_enabled (d : DeviceProperties) (f : Nat) : Bool :=
  decide (f ∈ d.set)

/-- Source `DeviceProperties::register_feature`: `self.set.insert(feature)`. -/
def DeviceProperties.register_feature (d : DeviceProperties) (f : Nat) :
    Bool × DeviceProperties :=
  ((btree_insert d.set f).1, { d with set := (btree_insert d.set f).2 })

theorem mem_insert_fold (features : List Nat) (acc : List Nat) (f : Nat)
    (h : f ∈ acc ∨ f ∈ features) :
    f ∈ features.foldl (fun s g => (btree_insert s g).2) acc := by
  induction features generalizing acc with
  | nil => simpa using h
  | cons g rest ih =>
    apply ih
    rcases h with hacc | hmem
    · left
      unfold btree_insert
      by_cases hg : g ∈ acc <;> simp [hg, hacc]
    · rcases List.mem_cons.mp hmem with rfl | hr
      · left
        unfold btree_insert
        by_cases hg : f ∈ acc <;> simp [hg]
      · right; exact hr

/-- C9: `register_feature(f)` returns `true` iff `feature_enabled(f)` was
`false` immediately before; afterwards `feature_enabled(f)` is `true`;
features passed to `new` are enabled from construction; registering an
already-present feature leaves the properties unchanged. -/
theorem C9_register_feature (d : DeviceProperties) (f : Nat)
    (features : List Nat) (mem hw : Nat) :
    ((d.register_feature f).1 = true ↔ d.feature_enabled f = false) ∧
    ((d.register_feature f).2.feature_enabled f = true) ∧
    (f ∈ features →
      (DeviceProperties.new features mem hw).feature_enabled f = true) ∧
    (d.feature_enabled f = true → (d.register_feature f).2 = d) := by
  refine ⟨?_, ?_, ?_, ?_⟩
  · unfold DeviceProperties.register_feature btree_insert
      DeviceProperties.feature_enabled
    by_cases hf : f ∈ d.set <;> simp [hf]
  · unfold DeviceProperties.register_feature btree_insert
      DeviceProperties.feature_enabled
    by_cases hf : f ∈ d.set <;> simp [hf]
  · intro hmem
    unfold DeviceProperties.new DeviceProperties.feature_enabled
    simpa using mem_insert_fold features [] f (Or.inr hmem)
  · intro he
    unfold DeviceProperties.feature_enabled at he
    simp at he
    unfold DeviceProperties.register_feature btree_insert
    simp [he]

def c9_props : DeviceProperties := DeviceProperties.new [1, 2] 0 0

theorem C9_register_feature_witness :
    ((c9_props.register_feature 3).1 = true ↔ c9_props.feature_enabled 3 = false) ∧
    ((c9_props.register_feature 3).2.feature_enabled 3 = true) ∧
    (3 ∈ [1, 2] → (DeviceProperties.new [1, 2] 0 0).feature_enabled 3 = true) ∧
    (c9_props.feature_enabled 3 = true → (c9_props.register_feature 3).2 = c9_props) :=
  C9_register_feature c9_props 3 [1, 2] 0 0

/-! ## Kernel identity and cache key

Translated from `crates/cubecl-common/src/id.rs`. -/

/-- Modelled from the spec: `ExecutionMode` (declared at the cubecl-common
crate root, not among the provided sources) is the bounds-checked vs.
unchecked discriminant. -/
inductive ExecutionMode
  | Checked
  | Unchecked
  deriving DecidableEq

/-- A universe of the concrete static-lifetime Rust types usable as kernel `info`
payloads: the shallow embedding of the `TypeId`-indexed dynamic typing in
`impl<T> DynKey for T`. -/
inductive InfoTy
  | natTy
  | strTy
  | pairTy (a b : InfoTy)
  deriving DecidableEq

@[reducible] def InfoTy.denote : InfoTy → Type
  | natTy => Nat
  | strTy => String
  | pairTy a b => a.denote × b.denote

/-- The payload type's own equality (the concrete type's `PartialEq`). -/
def InfoTy.beqFn : (t : InfoTy) → t.denote → t.denote → Bool
  | .natTy, a, b => a == b
  | .strTy, a, b => a == b
  | .pairTy t1 t2, a, b => t1.beqFn a.1 b.1 && t2.beqFn a.2 b.2

/-- The payload type's own hash: `dyn_hash` writes
`DefaultHashBuilder::new().hash_one(self)`, a deterministic function of the
value (which any concrete function models). -/
def InfoTy.hashFn : (t : InfoTy) → t.denote → Nat
  | .natTy, a => a
  | .strTy, s => s.length
  | .pairTy t1 t2, a => 2 * t1.hashFn a.1 + 3 * t2.hashFn a.2

/-- A deterministic code standing for `TypeId::of::<T>()`, hashed before the
payload in `Hash for Info` (`dyn_type_id`). -/
def InfoTy.code : InfoTy → Nat
  | .natTy => 0
  | .strTy => 1
  | .pairTy a b => 2 + 2 ^ a.code * (2 * b.code + 1)

theorem beqFn_iff (t : InfoTy) (a b : t.denote) : t.beqFn a b = true ↔ a = b := by
  induction t with
  | natTy => simp [InfoTy.beqFn]
  | strTy => simp [InfoTy.beqFn]
  | pairTy t1 t2 ih1 ih2 =>
    obtain ⟨a1, a2⟩ := a
    obtain ⟨b1, b2⟩ := b
    simp [InfoTy.beqFn, ih1, ih2, Prod.mk.injEq]

/-- The type-erased payload (`struct Info { value: Arc<dyn DynKey> }`): a
dependent pair of a concrete type and a value of that type. -/
structure Info where
  ty : InfoTy
  value : ty.denote

/-- Source `dyn_eq`: downcast the other payload to this payload's concrete type,
then compare with that type's own equality; the downcast (and hence the
comparison) fails whenever the concrete types differ. -/
def Info.dyn_eq (a b : Info) : Bool :=
  if h : a.ty = b.ty then b.ty.beqFn (h ▸ a.value) b.value else false

/-- Source `Hash for Info` writes the payload's `TypeId`, then the payload's own
hash; a hasher is modelled by the trace of words written to it. -/
def Info.hashTrace (a : Info) : List Nat := [a.ty.code, a.ty.hashFn a.value]

/-- Source `PartialEq for Option<Info>`. -/
def infoOptEq : Option Info → Option Info → Bool
  | none, none => true
  | some a, some b => a.dyn_eq b
  | _, _ => false

def modeCode : ExecutionMode → Nat
  | .Checked => 0
  | .Unchecked => 1

def optionTrace {α : Type} (f : α → List Nat) : Option α → List Nat
  | none => [0]
  | some a => 1 :: f a

/-- The kernel cache key (`struct KernelId`); the kernel type `T`'s `TypeId`
and `type_name` are modelled as a `Nat` and a `String` determined by `T`. -/
structure KernelId where
  type_id : Nat
  info : Option Info
  mode : Option ExecutionMode
  type_name : String

/-- Source `PartialEq for KernelId`: compares `type_id`, `mode` and `info` (never
`type_name`). -/
def KernelId.beq (a b : KernelId) : Bool :=
  (a.type_id == b.type_id) && decide (a.mode = b.mode) && infoOptEq a.info b.info

/-- Source `Hash for KernelId`: hashes `type_id`, then `info`, then `mode` (an
`Option` hashes its discriminant and, when present, its payload). -/
def KernelId.hashTrace (k : KernelId) : List Nat :=
  k.type_id :: (optionTrace Info.hashTrace k.info ++
    optionTrace (fun m => [modeCode m]) k.mode)

/-- Source `KernelId::new::<T>()`. -/
def KernelId.new (type_id : Nat) (type_name : String) : KernelId :=
  { type_id := type_id, info := none, mode := none, type_name := type_name }

/-- Source `KernelId::info` (named `with_info` here because `info` names the
field). -/
def KernelId.with_info (k : KernelId) (ty : InfoTy) (v : ty.denote) : KernelId :=
  { k with info := some { ty := ty, value := v } }

/-- Source `KernelId::mode` (named `set_mode` here because `mode` names the
field). -/
def KernelId.set_mode (k : KernelId) (m : ExecutionMode) : KernelId :=
  { k with mode := some m }

/-- C3: two `KernelId`s built from the same static type `T`, with payloads of
the same concrete type that are equal under that type's own equality, and
the same execution mode, compare equal and hash identically; two
`KernelId`s whose payloads have different concrete types are never equal. -/
theorem C3_kernel_id_cache_key (tid : Nat) (tname : String) (ty ty2 : InfoTy)
    (v1 v2 : ty.denote) (w : ty2.denote) (m : ExecutionMode)
    (hv : ty.beqFn v1 v2 = true) (hty : ty ≠ ty2) :
    (KernelId.beq (((KernelId.new tid tname).with_info ty v1).set_mode m)
        (((KernelId.new tid tname).with_info ty v2).set_mode m) = true) ∧
    (KernelId.hashTrace (((KernelId.new tid tname).with_info ty v1).set_mode m) =
        KernelId.hashTrace (((KernelId.new tid tname).with_info ty v2).set_mode m)) ∧
    (KernelId.beq (((KernelId.new tid tname).with_info ty v1).set_mode m)
        (((KernelId.new tid tname).with_info ty2 w).set_mode m) = false) := by
  have hv2 : v1 = v2 := (beqFn_iff ty v1 v2).mp hv
  subst hv2
  refine ⟨?_, rfl, ?_⟩
  · simp [KernelId.beq, KernelId.new, KernelId.with_info, KernelId.set_mode,
      infoOptEq, Info.dyn_eq, beqFn_iff]
  · simp [KernelId.beq, KernelId.new, KernelId.with_info, KernelId.set_mode,
      infoOptEq, Info.dyn_eq, hty]

theorem C3_kernel_id_cache_key_witness :
    (KernelId.beq
        (((KernelId.new 7 "kernel").with_info InfoTy.natTy 3).set_mode
          ExecutionMode.Checked)
        (((KernelId.new 7 "kernel").with_info InfoTy.natTy 3).set_mode
          ExecutionMode.Checked) = true) ∧
    (KernelId.hashTrace
        (((KernelId.new 7 "kernel").with_info InfoTy.natTy 3).set_mode
          ExecutionMode.Checked) =
      KernelId.hashTrace
        (((KernelId.new 7 "kernel").with_info InfoTy.natTy 3).set_mode
          ExecutionMode.Checked)) ∧
    (KernelId.beq
        (((KernelId.new 7 "kernel").with_info InfoTy.natTy 3).set_mode
          ExecutionMode.Checked)
        (((KernelId.new 7 "kernel").with_info InfoTy.strTy "x").set_mode
          ExecutionMode.Checked) = false) :=
  C3_kernel_id_cache_key 7 "kernel" InfoTy.natTy InfoTy.strTy 3 3 "x"
    ExecutionMode.Checked (by decide) (by decide)

end Kubecl
